import Mathlib

/-
Verification of the autoencoder-and-clustering pipeline of this repository.

The source is a single Python script. Its core operations are translated
here as a shallow embedding:

* the `Autoencoder` module (encoder, decoder, forward) over real-valued
  vectors, parameterized by arbitrary weight matrices;
* the architecture of the encoder as a symbolic layer list (for claims
  about the number of affine transforms and the dimension path);
* `train_autoencoder`, the training loop, polymorphic in the numeric type
  of the loss so that both exact-rational losses and a non-finite-capable
  loss domain can be instantiated; the optimizer step and the model forward
  pass are abstracted as parameters (they are external library calls);
* `get_embeddings` together with a model of the `DataLoader` (batching a
  dataset following a traversal order; the order is the identity when the
  loader is constructed with shuffling disabled);
* `calculate_mapping` (cluster-to-majority-label mapping) together with
  faithful models of `np.bincount` and `ndarray.argmax`;
* `evaluate_clustering`, with the three sklearn metric functions and the
  two clustering fit results abstracted as parameters (they are external
  library calls); the code around them (the guard on the number of distinct
  DBSCAN labels, the unconditional metric computation for K-Means, and the
  construction of the returned dictionary) is translated directly.

Fallible Python operations (raising `ValueError`) are modelled with
`Except String`.
-/

set_option autoImplicit false

/-! ## Model of `np.unique` (values sorted, duplicates removed) -/

/-- Insert an integer into a sorted list, keeping it sorted. -/
def insertSorted (x : Int) : List Int → List Int
  | [] => [x]
  | y :: ys => if x ≤ y then x :: y :: ys else y :: insertSorted x ys

/-- Insertion sort on integer lists. -/
def sortInts : List Int → List Int
  | [] => []
  | x :: xs => insertSorted x (sortInts xs)

/-- Model of `np.unique`: the distinct values of the list, sorted. -/
def np_unique (l : List Int) : List Int :=
  sortInts l.dedup

/-! ## Model of `np.bincount` and `ndarray.argmax` -/

/-- Model of `np.bincount`: counts of each non-negative value, indexed from
zero up to the maximum of the list. Raises on any negative value, and
returns the empty array on empty input, as numpy does. -/
def np_bincount (v : List Int) : Except String (List Nat) :=
  if v.any (fun x => decide (x < 0)) then
    .error "bincount requires non-negative values"
  else if v.isEmpty then
    .ok []
  else
    .ok ((List.range ((v.foldr max 0).toNat + 1)).map (fun (i : Nat) => v.count ((i : Int))))

/-- Model of `ndarray.argmax`: index of the first occurrence of the maximum
value. Raises on an empty array, as numpy does. -/
def np_argmax (l : List Nat) : Except String Nat :=
  if l.isEmpty then
    .error "argmax of an empty sequence"
  else
    .ok (l.findIdx (fun x => x == l.foldr max 0))

/-- The composite `np.bincount(v).argmax()` used by `calculate_mapping`. -/
def bincountArgmax (v : List Int) : Except String Nat :=
  match np_bincount v with
  | .error e => .error e
  | .ok b => np_argmax b

/-! ## Model of `calculate_mapping` -/

/-- One step of the grouping loop of `calculate_mapping`: append `l` to the
entry of key `c` of the insertion-ordered association list `acc`, creating
the entry at the end if the key is new (the behaviour of
`defaultdict(list)` under `mapping[cluster].append(label)`). -/
def addPair (acc : List (Int × List Int)) (c l : Int) : List (Int × List Int) :=
  if acc.any (fun e => e.1 == c) then
    acc.map (fun e => if e.1 == c then (e.1, e.2 ++ [l]) else e)
  else
    acc ++ [(c, [l])]

/-- The grouping loop of `calculate_mapping`: group true labels by assigned
cluster identifier, in first-occurrence key order. -/
def groupByCluster (pairs : List (Int × Int)) : List (Int × List Int) :=
  pairs.foldl (fun acc p => addPair acc p.1 p.2) []

/-- The dict comprehension of `calculate_mapping`: apply
`np.bincount(v).argmax()` to every grouped label list, raising at the first
failure. -/
def calcEntries : List (Int × List Int) → Except String (List (Int × Nat))
  | [] => .ok []
  | (k, v) :: rest =>
    match bincountArgmax v with
    | .error e => .error e
    | .ok a =>
      match calcEntries rest with
      | .error e => .error e
      | .ok r => .ok ((k, a) :: r)

/-- Model of `calculate_mapping`: zip cluster identifiers with true labels,
group the labels by cluster, and map every cluster to the first-maximal
bincount index of its labels. -/
def calculate_mapping (cluster_labels true_labels : List Int) :
    Except String (List (Int × Nat)) :=
  calcEntries (groupByCluster (cluster_labels.zip true_labels))

/-- The true labels grouped under cluster `c` by `calculate_mapping`, read
off directly from the zipped pairs (specification-side view used in the
statements about `calculate_mapping`). -/
def clusterMembers (pairs : List (Int × Int)) (c : Int) : List Int :=
  (pairs.filter (fun p => p.1 == c)).map Prod.snd

/-! ## Model of `evaluate_clustering` -/

/-- The dictionary returned by `evaluate_clustering`. Metric dictionaries
are association lists from metric name to score; the score type is a
parameter since the scores come from external sklearn calls. -/
structure ClusterEvalResult (σ : Type) where
  kmeans_labels : List Int
  kmeans_metrics : List (String × σ)
  kmeans_mapping : List (Int × Nat)
  dbscan_labels : List Int
  dbscan_metrics : List (String × σ)
deriving Repr

/-- Model of `evaluate_clustering`. The three sklearn metric functions are
parameters (external library calls that may raise), and the two label
vectors `kmeans_labels` and `dbscan_labels` are parameters standing for the
results of the `KMeans.fit_predict` and `DBSCAN.fit_predict` library calls.
The translated logic is: compute the three K-Means metrics unconditionally,
compute the three DBSCAN metrics only when more than one distinct DBSCAN
label is present, then compute the cluster-to-label mapping for K-Means,
and return everything in one record. -/
def evaluate_clustering {σ : Type}
    (silhouette_score davies_bouldin_score calinski_harabasz_score :
      List (List ℚ) → List Int → Except String σ)
    (embeddings : List (List ℚ)) (true_labels : List Int)
    (kmeans_labels dbscan_labels : List Int) :
    Except String (ClusterEvalResult σ) :=
  match silhouette_score embeddings kmeans_labels with
  | .error e => .error e
  | .ok s =>
    match davies_bouldin_score embeddings kmeans_labels with
    | .error e => .error e
    | .ok db =>
      match calinski_harabasz_score embeddings kmeans_labels with
      | .error e => .error e
      | .ok ch =>
        match (if 1 < (np_unique dbscan_labels).length then
                match silhouette_score embeddings dbscan_labels with
                | .error e => Except.error e
                | .ok s2 =>
                  match davies_bouldin_score embeddings dbscan_labels with
                  | .error e => Except.error e
                  | .ok db2 =>
                    match calinski_harabasz_score embeddings dbscan_labels with
                    | .error e => Except.error e
                    | .ok ch2 =>
                      Except.ok [("silhouette", s2), ("davies_bouldin", db2),
                                 ("calinski_harabasz", ch2)]
              else Except.ok ([] : List (String × σ))) with
        | .error e => .error e
        | .ok dbm =>
          match calculate_mapping kmeans_labels true_labels with
          | .error e => .error e
          | .ok km =>
            .ok { kmeans_labels := kmeans_labels
                  kmeans_metrics := [("silhouette", s), ("davies_bouldin", db),
                                     ("calinski_harabasz", ch)]
                  kmeans_mapping := km
                  dbscan_labels := dbscan_labels
                  dbscan_metrics := dbm }

/-- A stub metric function that succeeds exactly when at least two distinct
labels are present, used to instantiate the metric-function parameters in
concrete evaluations. -/
def metricStub (_emb : List (List ℚ)) (labels : List Int) : Except String Nat :=
  if 1 < (np_unique labels).length then .ok 0 else .error "fewer than two labels"

/-! ## Model of the `DataLoader` and `get_embeddings` -/

/-- Fuel-driven batching helper; the fuel is the length of the list, enough
whenever the batch size is positive. -/
def toBatchesAux {β : Type} : Nat → Nat → List β → List (List β)
  | 0, _, _ => []
  | _ + 1, _, [] => []
  | fuel + 1, bs, l => l.take bs :: toBatchesAux fuel bs (l.drop bs)

/-- Split a list into consecutive batches of the given size (the last batch
may be smaller). -/
def toBatches {β : Type} (batch_size : Nat) (l : List β) : List (List β) :=
  toBatchesAux l.length batch_size l

/-- Model of a `DataLoader` over a `TensorDataset`: traverse the dataset
rows in the given order and split the traversal into batches. A loader
constructed with shuffling disabled has `order = List.range data.length`;
a shuffling loader has an arbitrary permutation as its order. -/
def dataLoader {X L : Type} (data : List (X × L)) (order : List Nat)
    (batch_size : Nat) : List (List (X × L)) :=
  toBatches batch_size (order.filterMap (fun i => data[i]?))

/-- Model of `get_embeddings`: run the encoder on every batch, collect the
per-batch embedding arrays and label arrays, and concatenate them (the
`np.vstack` and `np.concatenate` of the source). The encoder `encode` is
the trained model's latent map, abstracted as a function parameter. -/
def get_embeddings {X E L : Type} (encode : X → E)
    (dataloader : List (List (X × L))) : List E × List L :=
  ((dataloader.map (fun batch => batch.map (fun p => encode p.1))).flatten,
   (dataloader.map (fun batch => batch.map (fun p => p.2))).flatten)

/-! ## Model of the `Autoencoder` module -/

/-- Parameters of one `nn.Linear` layer: a weight matrix (one row per
output component) and a bias vector. -/
structure LinParams where
  weight : List (List ℝ)
  bias : List ℝ

/-- Dot product of two real vectors (zipped, so extra components of either
vector are ignored). -/
def dotR (w x : List ℝ) : ℝ :=
  ((w.zip x).map (fun q => q.1 * q.2)).sum

/-- Application of one `nn.Linear` layer. -/
def linearF (p : LinParams) (x : List ℝ) : List ℝ :=
  (p.weight.zip p.bias).map (fun wb => dotR wb.1 x + wb.2)

/-- Elementwise `nn.ReLU`. -/
def reluF (x : List ℝ) : List ℝ :=
  x.map (fun t => max t 0)

/-- Elementwise `nn.Sigmoid`. -/
noncomputable def sigmoidF (x : List ℝ) : List ℝ :=
  x.map (fun t => 1 / (1 + Real.exp (-t)))

/-- The encoder `nn.Sequential`: three linear layers with two rectifying
activations between them. -/
def Autoencoder.encoder (e1 e2 e3 : LinParams) (x : List ℝ) : List ℝ :=
  linearF e3 (reluF (linearF e2 (reluF (linearF e1 x))))

/-- The decoder `nn.Sequential`: three linear layers with two rectifying
activations between them and a final sigmoid. -/
noncomputable def Autoencoder.decoder (d1 d2 d3 : LinParams) (z : List ℝ) : List ℝ :=
  sigmoidF (linearF d3 (reluF (linearF d2 (reluF (linearF d1 z)))))

/-- The `forward` method: return the reconstruction and the latent vector. -/
noncomputable def Autoencoder.forward (e1 e2 e3 d1 d2 d3 : LinParams)
    (x : List ℝ) : List ℝ × List ℝ :=
  (Autoencoder.decoder d1 d2 d3 (Autoencoder.encoder e1 e2 e3 x),
   Autoencoder.encoder e1 e2 e3 x)

/-! ## Symbolic view of the architecture -/

/-- One layer of an `nn.Sequential` stack, recording only its kind and,
for affine layers, its input and output widths. -/
inductive Layer where
  | linear (inDim outDim : Nat)
  | relu
  | sigmoid
deriving DecidableEq, Repr

/-- The encoder layer stack of `Autoencoder.__init__`, as written in the
source: `Linear(input_dim, encoding_dim)`, `ReLU`,
`Linear(encoding_dim, encoding_dim // 2)`, `ReLU`,
`Linear(encoding_dim // 2, latent_dim)`. -/
def encoderLayers (input_dim encoding_dim latent_dim : Nat) : List Layer :=
  [Layer.linear input_dim encoding_dim,
   Layer.relu,
   Layer.linear encoding_dim (encoding_dim / 2),
   Layer.relu,
   Layer.linear (encoding_dim / 2) latent_dim]

/-- Whether a layer is an affine transform. -/
def isAffine : Layer → Bool
  | Layer.linear _ _ => true
  | _ => false

/-- Whether a layer is a rectifying activation. -/
def isRelu : Layer → Bool
  | Layer.relu => true
  | _ => false

/-- Number of affine transforms in a layer stack. -/
def affineCount (ls : List Layer) : Nat :=
  ls.countP isAffine

/-- Number of rectifying activations in a layer stack. -/
def reluCount (ls : List Layer) : Nat :=
  ls.countP isRelu

/-- Helper for `dimPath`: thread the current width through the remaining
layers, extending the path at each affine layer and failing if widths do
not chain. -/
def dimPathAux : List Layer → List Nat → Nat → Option (List Nat)
  | [], acc, _ => some acc
  | Layer.linear i o :: rest, acc, cur =>
    if i = cur then dimPathAux rest (acc ++ [o]) o else none
  | Layer.relu :: rest, acc, cur => dimPathAux rest acc cur
  | Layer.sigmoid :: rest, acc, cur => dimPathAux rest acc cur

/-- The dimensionality path of a layer stack that starts with an affine
layer: the input width followed by the output width of each successive
affine layer, defined only when consecutive affine widths chain. -/
def dimPath : List Layer → Option (List Nat)
  | Layer.linear i o :: rest => dimPathAux rest [i, o] o
  | _ => none

/-! ## Model of `train_autoencoder` -/

/-- One epoch of the training loop: fold over the epoch's batches, carrying
the model state and the accumulated `total_loss`. For each batch the loss
is computed from the state before the optimizer step, exactly as in the
source (`loss = criterion(model(data), data)` before `optimizer.step()`,
then `total_loss += loss.item()`). `lossOf` abstracts the forward pass plus
criterion; `update` abstracts the backward pass plus optimizer step. -/
def runEpoch {α θt : Type} (zero : α) (add : α → α → α)
    (lossOf : θt → List (List ℚ) → α) (update : θt → List (List ℚ) → θt)
    (batches : List (List (List ℚ))) (θ0 : θt) : θt × α :=
  batches.foldl (fun acc data => (update acc.1 data, add acc.2 (lossOf acc.1 data)))
    (θ0, zero)

/-- Model of `train_autoencoder`: for every epoch run all batches of that
epoch, then append `total_loss / len(train_loader)` to the loss list. The
loader is a function from the epoch index to that epoch's batch sequence
(the `DataLoader` reshuffles every epoch). The loss domain `α` is a
parameter so that exact rationals and a non-finite-capable domain can both
be instantiated. -/
def train_autoencoder {α θt : Type} (zero : α) (add : α → α → α)
    (divNat : α → Nat → α)
    (lossOf : θt → List (List ℚ) → α) (update : θt → List (List ℚ) → θt)
    (train_loader : Nat → List (List (List ℚ))) (θ0 : θt) (num_epochs : Nat) :
    θt × List α :=
  (List.range num_epochs).foldl
    (fun acc epoch =>
      let res := runEpoch zero add lossOf update (train_loader epoch) acc.1
      (res.1, acc.2 ++ [divNat res.2 (train_loader epoch).length]))
    (θ0, [])

/-- The per-batch loss values of one epoch, along the trajectory of model
states (specification-side view of the epoch used in the statements about
`train_autoencoder`). -/
def batchLosses {α θt : Type} (lossOf : θt → List (List ℚ) → α)
    (update : θt → List (List ℚ) → θt) :
    List (List (List ℚ)) → θt → List α
  | [], _ => []
  | b :: bs, θ => lossOf θ b :: batchLosses lossOf update bs (update θ b)

/-- Model of `nn.MSELoss()` with its default mean reduction: the mean of
the squared componentwise differences over all elements of the batch. -/
def mseLoss (recon data : List (List ℚ)) : ℚ :=
  let diffs := ((recon.zip data).map
    (fun p => (p.1.zip p.2).map (fun q => (q.1 - q.2) ^ 2))).flatten
  diffs.sum / (diffs.length : ℚ)

/-- The batch-size-weighted average of the per-batch losses, written from
the words of the specification (total loss weighted by batch row counts,
divided by the number of rows processed); compared against what the code
records. -/
def weightedAvgLoss (lossFn : List (List ℚ) → ℚ)
    (batches : List (List (List ℚ))) : ℚ :=
  ((batches.map (fun b => (b.length : ℚ) * lossFn b)).sum) /
    ((batches.map (fun b => (b.length : ℚ))).sum)

/-- A reconstruction function that returns all zeros, used as a concrete
model instance in counterexample evaluations. -/
def reconZero (b : List (List ℚ)) : List (List ℚ) :=
  b.map (fun row => row.map (fun _ => 0))

/-! ## A loss domain with a non-finite value -/

/-- A numeric domain with an absorbing non-finite value, modelling the
IEEE `nan` behaviour relevant to the training loop: once a batch loss is
non-finite, sums and averages containing it are non-finite. -/
inductive FloatVal where
  | fin (q : ℚ)
  | nan
deriving DecidableEq, Repr

/-- Addition on `FloatVal`: `nan` is absorbing. -/
def FloatVal.add : FloatVal → FloatVal → FloatVal
  | .fin a, .fin b => .fin (a + b)
  | _, _ => .nan

/-- Division of a `FloatVal` by a natural number: `nan` is absorbing. -/
def FloatVal.divNat : FloatVal → Nat → FloatVal
  | .fin a, n => .fin (a / (n : ℚ))
  | .nan, _ => .nan

/-- The two-row dataset used in concrete loader evaluations. -/
def dataEx : List (List ℚ × Int) :=
  [([0], 0), ([1], 1)]

/-! ## Lemmas about the training loop -/

theorem runEpoch_foldl {α θt : Type} (add : α → α → α)
    (lossOf : θt → List (List ℚ) → α) (update : θt → List (List ℚ) → θt)
    (batches : List (List (List ℚ))) :
    ∀ (θ : θt) (t : α),
      batches.foldl
          (fun acc data => (update acc.1 data, add acc.2 (lossOf acc.1 data))) (θ, t) =
        (batches.foldl update θ, (batchLosses lossOf update batches θ).foldl add t) := by
  induction batches with
  | nil => intro θ t; simp [batchLosses]
  | cons b bs ih => intro θ t; simp [batchLosses, ih]

theorem runEpoch_eq {α θt : Type} (zero : α) (add : α → α → α)
    (lossOf : θt → List (List ℚ) → α) (update : θt → List (List ℚ) → θt)
    (batches : List (List (List ℚ))) (θ0 : θt) :
    runEpoch zero add lossOf update batches θ0 =
      (batches.foldl update θ0, (batchLosses lossOf update batches θ0).foldl add zero) := by
  unfold runEpoch
  exact runEpoch_foldl add lossOf update batches θ0 zero

theorem train_autoencoder_zero {α θt : Type} (zero : α) (add : α → α → α)
    (divNat : α → Nat → α)
    (lossOf : θt → List (List ℚ) → α) (update : θt → List (List ℚ) → θt)
    (train_loader : Nat → List (List (List ℚ))) (θ0 : θt) :
    train_autoencoder zero add divNat lossOf update train_loader θ0 0 = (θ0, []) := by
  simp [train_autoencoder]

theorem train_autoencoder_succ {α θt : Type} (zero : α) (add : α → α → α)
    (divNat : α → Nat → α)
    (lossOf : θt → List (List ℚ) → α) (update : θt → List (List ℚ) → θt)
    (train_loader : Nat → List (List (List ℚ))) (θ0 : θt) (n : Nat) :
    train_autoencoder zero add divNat lossOf update train_loader θ0 (n + 1) =
      ((train_loader n).foldl update
          (train_autoencoder zero add divNat lossOf update train_loader θ0 n).1,
       (train_autoencoder zero add divNat lossOf update train_loader θ0 n).2 ++
         [divNat ((batchLosses lossOf update (train_loader n)
             (train_autoencoder zero add divNat lossOf update train_loader θ0 n).1).foldl
               add zero)
           (train_loader n).length]) := by
  unfold train_autoencoder
  rw [List.range_succ, List.foldl_append]
  simp [runEpoch_eq]

theorem train_autoencoder_losses_length {α θt : Type} (zero : α) (add : α → α → α)
    (divNat : α → Nat → α)
    (lossOf : θt → List (List ℚ) → α) (update : θt → List (List ℚ) → θt)
    (train_loader : Nat → List (List (List ℚ))) (θ0 : θt) (n : Nat) :
    (train_autoencoder zero add divNat lossOf update train_loader θ0 n).2.length = n := by
  induction n with
  | zero => simp [train_autoencoder_zero]
  | succ n ih =>
    rw [train_autoencoder_succ]
    simp [ih]

theorem train_autoencoder_fst {α θt : Type} (zero : α) (add : α → α → α)
    (divNat : α → Nat → α)
    (lossOf : θt → List (List ℚ) → α) (update : θt → List (List ℚ) → θt)
    (train_loader : Nat → List (List (List ℚ))) (θ0 : θt) (n : Nat) :
    (train_autoencoder zero add divNat lossOf update train_loader θ0 n).1 =
      (List.range n).foldl (fun θ e => (train_loader e).foldl update θ) θ0 := by
  induction n with
  | zero => simp [train_autoencoder_zero]
  | succ n ih =>
    rw [train_autoencoder_succ, List.range_succ, List.foldl_append, ih]
    simp

theorem mseLoss_nonneg (recon data : List (List ℚ)) : 0 ≤ mseLoss recon data := by
  unfold mseLoss
  apply div_nonneg
  · apply List.sum_nonneg
    intro x hx
    simp only [List.mem_flatten, List.mem_map] at hx
    obtain ⟨l, ⟨p, _, hp⟩, hxl⟩ := hx
    subst hp
    simp only [List.mem_map] at hxl
    obtain ⟨q, _, hq⟩ := hxl
    subst hq
    positivity
  · positivity

theorem foldl_add_nonneg (l : List ℚ) :
    ∀ (init : ℚ), 0 ≤ init → (∀ x ∈ l, 0 ≤ x) → 0 ≤ l.foldl (· + ·) init := by
  induction l with
  | nil => intro init h0 _; simpa using h0
  | cons x xs ih =>
    intro init h0 h
    simp only [List.foldl_cons]
    exact ih (init + x) (by
      have := h x (List.mem_cons_self x xs)
      linarith) (fun y hy => h y (List.mem_cons_of_mem x hy))

theorem batchLosses_mse_nonneg {θt : Type} (recon : θt → List (List ℚ) → List (List ℚ))
    (update : θt → List (List ℚ) → θt) (batches : List (List (List ℚ))) :
    ∀ (θ : θt) (x : ℚ),
      x ∈ batchLosses (fun θ b => mseLoss (recon θ b) b) update batches θ → 0 ≤ x := by
  induction batches with
  | nil => intro θ x hx; simp [batchLosses] at hx
  | cons b bs ih =>
    intro θ x hx
    simp only [batchLosses, List.mem_cons] at hx
    rcases hx with h | h
    · subst h; exact mseLoss_nonneg _ _
    · exact ih _ x h

/-! ## Claims C4, C5, C8 (training loop) -/

/-- C8: For every configured epoch count, `train_autoencoder` returns a
loss sequence whose length equals that epoch count (training always runs
the full count, with no early stopping), and — with the per-batch loss
being the mean-squared reconstruction error of an arbitrary reconstruction
function — every recorded per-epoch value is a non-negative rational (the
exact-arithmetic model of a non-negative finite number). -/
theorem C8_loss_sequence_length_and_nonneg {θt : Type}
    (recon : θt → List (List ℚ) → List (List ℚ)) (update : θt → List (List ℚ) → θt)
    (train_loader : Nat → List (List (List ℚ))) (θ0 : θt) (num_epochs : Nat) :
    (train_autoencoder (0 : ℚ) (· + ·) (fun q k => q / (k : ℚ))
        (fun θ b => mseLoss (recon θ b) b) update train_loader θ0 num_epochs).2.length
        = num_epochs ∧
    List.Forall (fun q => 0 ≤ q)
      (train_autoencoder (0 : ℚ) (· + ·) (fun q k => q / (k : ℚ))
        (fun θ b => mseLoss (recon θ b) b) update train_loader θ0 num_epochs).2 := by
  constructor
  · exact train_autoencoder_losses_length _ _ _ _ _ _ _ _
  · rw [List.forall_iff_forall_mem]
    induction num_epochs with
    | zero => simp [train_autoencoder_zero]
    | succ n ih =>
      intro x hx
      rw [train_autoencoder_succ] at hx
      simp only [List.mem_append, List.mem_singleton] at hx
      rcases hx with h | h
      · exact ih x h
      · subst h
        apply div_nonneg
        · exact foldl_add_nonneg _ 0 le_rfl
            (fun y hy => batchLosses_mse_nonneg recon update _ _ y hy)
        · positivity

/-- C4 counterexample: an epoch with two batches, of 2 rows and 1 row. The
per-batch mean-squared errors against an all-zeros reconstruction are 0 and
1, so the value the code records is the unweighted batch mean 1/2, while
the batch-size-weighted average of the claim is 1/3; the two differ. -/
theorem C4_counterexample :
    (train_autoencoder (0 : ℚ) (· + ·) (fun q k => q / (k : ℚ))
        (fun _ b => mseLoss (reconZero b) b) (fun θ _ => θ)
        (fun _ => [[[(0 : ℚ)], [0]], [[1]]]) () 1).2 = [1/2] ∧
    weightedAvgLoss (fun b => mseLoss (reconZero b) b) [[[(0 : ℚ)], [0]], [[1]]] = 1/3 ∧
    (1/2 : ℚ) ≠ 1/3 := by
  refine ⟨?_, ?_, by norm_num⟩
  · simp [train_autoencoder, runEpoch, mseLoss, reconZero, List.range_succ]
  · simp [weightedAvgLoss, mseLoss, reconZero]
    norm_num

/-- C4 amended: for every epoch, the value `train_autoencoder` appends to
the loss sequence equals the sum of the per-batch losses of that epoch
divided by the number of batches of that epoch — the unweighted mean over
batches, which coincides with the batch-size-weighted average only when all
batches have the same size. -/
theorem C4_amended_epoch_value {α θt : Type} (zero : α) (add : α → α → α)
    (divNat : α → Nat → α) (lossOf : θt → List (List ℚ) → α)
    (update : θt → List (List ℚ) → θt)
    (train_loader : Nat → List (List (List ℚ))) (θ0 : θt) (n : Nat) :
    (train_autoencoder zero add divNat lossOf update train_loader θ0 (n + 1)).2 =
      (train_autoencoder zero add divNat lossOf update train_loader θ0 n).2 ++
        [divNat ((batchLosses lossOf update (train_loader n)
            (train_autoencoder zero add divNat lossOf update train_loader θ0 n).1).foldl
              add zero)
          (train_loader n).length] := by
  rw [train_autoencoder_succ]

/-- C5 counterexample: the loss of the very first batch of the run is
non-finite (`FloatVal.nan`), yet training does not stop there: the final
parameter state records all four batch updates of the two configured
epochs, the second epoch is processed and records a finite average, and
the loss list has both epochs, not only the one where the non-finite loss
occurred. -/
theorem C5_counterexample :
    (train_autoencoder (FloatVal.fin 0) FloatVal.add FloatVal.divNat
        (fun (θ : Nat) (_ : List (List ℚ)) =>
          if θ = 0 then FloatVal.nan else FloatVal.fin (θ : ℚ))
        (fun θ _ => θ + 1)
        (fun _ => [[[(0 : ℚ)]], [[0]]]) (0 : Nat) 2) =
      (4, [FloatVal.nan, FloatVal.fin (5/2)]) ∧
    ¬ (train_autoencoder (FloatVal.fin 0) FloatVal.add FloatVal.divNat
        (fun (θ : Nat) (_ : List (List ℚ)) =>
          if θ = 0 then FloatVal.nan else FloatVal.fin (θ : ℚ))
        (fun θ _ => θ + 1)
        (fun _ => [[[(0 : ℚ)]], [[0]]]) (0 : Nat) 2).2.length ≤ 1 := by
  constructor
  · simp [train_autoencoder, runEpoch, FloatVal.add, FloatVal.divNat, List.range_succ]
    norm_num
  · simp [train_autoencoder, runEpoch, FloatVal.add, FloatVal.divNat, List.range_succ]

/-- C5 amended: the training loop contains no check on loss values at all:
over the non-finite-capable loss domain, for every loss function (including
ones that produce a non-finite value) the run still records one average per
configured epoch and the final parameter state is the fold of the optimizer
update over every batch of every epoch — no stop, no retry, no
learning-rate recovery; a non-finite loss merely propagates into the
affected epoch's recorded average. -/
theorem C5_amended_no_stop {θt : Type}
    (lossOf : θt → List (List ℚ) → FloatVal) (update : θt → List (List ℚ) → θt)
    (train_loader : Nat → List (List (List ℚ))) (θ0 : θt) (num_epochs : Nat) :
    (train_autoencoder (FloatVal.fin 0) FloatVal.add FloatVal.divNat lossOf update
        train_loader θ0 num_epochs).2.length = num_epochs ∧
    (train_autoencoder (FloatVal.fin 0) FloatVal.add FloatVal.divNat lossOf update
        train_loader θ0 num_epochs).1 =
      (List.range num_epochs).foldl (fun θ e => (train_loader e).foldl update θ) θ0 :=
  ⟨train_autoencoder_losses_length _ _ _ _ _ _ _ _,
   train_autoencoder_fst _ _ _ _ _ _ _ _⟩

/-! ## Claims C6, C7 (architecture and bounded reconstruction) -/

/-- C6 counterexample: at the source's default configuration the encoder
stack contains three affine transforms, not the two the claim states. -/
theorem C6_counterexample : affineCount (encoderLayers 784 128 10) ≠ 2 := by
  decide

/-- C6 amended: for every choice of widths, the encoder is a composition of
exactly three affine transforms with two rectifying activations between
them, and its dimensionality path is input width, intermediate width, half
the intermediate width, latent width (two hidden layers). -/
theorem C6_amended_encoder_shape (input_dim encoding_dim latent_dim : Nat) :
    affineCount (encoderLayers input_dim encoding_dim latent_dim) = 3 ∧
    reluCount (encoderLayers input_dim encoding_dim latent_dim) = 2 ∧
    dimPath (encoderLayers input_dim encoding_dim latent_dim) =
      some [input_dim, encoding_dim, encoding_dim / 2, latent_dim] := by
  refine ⟨?_, ?_, ?_⟩ <;>
    simp [encoderLayers, affineCount, reluCount, dimPath, dimPathAux,
      isAffine, isRelu, List.countP_cons]

/-- C7: for every choice of weight matrices of all six layers (hence for
any positive widths) and every input vector, every component of the
reconstruction returned by the forward pass lies in the interval from 0 to
1, because the decoder ends in a sigmoid. -/
theorem C7_reconstruction_bounded (e1 e2 e3 d1 d2 d3 : LinParams) (x : List ℝ) :
    List.Forall (fun y => 0 ≤ y ∧ y ≤ 1)
      (Autoencoder.forward e1 e2 e3 d1 d2 d3 x).1 := by
  rw [List.forall_iff_forall_mem]
  intro y hy
  simp only [Autoencoder.forward, Autoencoder.decoder, sigmoidF, List.mem_map] at hy
  obtain ⟨t, _, ht⟩ := hy
  subst ht
  have h : 0 < 1 + Real.exp (-t) := by positivity
  constructor
  · positivity
  · rw [div_le_one h]
    have hexp := (Real.exp_pos (-t)).le
    linarith

/-! ## Lemmas about batching and embedding extraction -/

theorem toBatchesAux_flatten {β : Type} (bs : Nat) (hbs : 0 < bs) :
    ∀ (fuel : Nat) (l : List β), l.length ≤ fuel →
      (toBatchesAux fuel bs l).flatten = l := by
  intro fuel
  induction fuel with
  | zero =>
    intro l hl
    rw [Nat.le_zero, List.length_eq_zero] at hl
    subst hl
    rfl
  | succ f ih =>
    intro l hl
    match l with
    | [] => rfl
    | x :: xs =>
      have hstep : toBatchesAux (f + 1) bs (x :: xs) =
          (x :: xs).take bs :: toBatchesAux f bs ((x :: xs).drop bs) := rfl
      rw [hstep, List.flatten_cons, ih _ ?_, List.take_append_drop]
      have hlen : ((x :: xs).drop bs).length = (x :: xs).length - bs := by
        simp
      rw [hlen]
      simp only [List.length_cons] at hl ⊢
      omega

theorem toBatches_flatten {β : Type} (bs : Nat) (hbs : 0 < bs) (l : List β) :
    (toBatches bs l).flatten = l :=
  toBatchesAux_flatten bs hbs l.length l le_rfl

theorem filterMap_getElem_range {β : Type} (l : List β) :
    (List.range l.length).filterMap (fun i => l[i]?) = l := by
  induction l with
  | nil => rfl
  | cons x xs ih =>
    rw [List.length_cons, List.range_succ_eq_map]
    simp only [List.filterMap_cons, List.getElem?_cons_zero, List.filterMap_map,
      Function.comp_def, Nat.succ_eq_add_one, List.getElem?_cons_succ]
    rw [ih]

theorem flatten_map_map {β γ : Type} (f : β → γ) (L : List (List β)) :
    (L.map (fun b => b.map f)).flatten = L.flatten.map f := by
  induction L with
  | nil => rfl
  | cons b bs ih => simp only [List.map_cons, List.flatten_cons, List.map_append, ih]

theorem get_embeddings_eq {X E L : Type} (encode : X → E)
    (dataloader : List (List (X × L))) :
    get_embeddings encode dataloader =
      (dataloader.flatten.map (fun p => encode p.1),
       dataloader.flatten.map (fun p => p.2)) := by
  unfold get_embeddings
  rw [flatten_map_map, flatten_map_map]

/-! ## Claims C9 and C3 (embedding extraction alignment and row order) -/

/-- C9: For every sequence of batches the data loader yields — in any
order, including a shuffled one — the embedding array and label array
returned by `get_embeddings` have equal row counts, and for every index the
label at that index and the embedding at that index come from one and the
same dataset row (the row at that position of the loader's traversal). -/
theorem C9_embeddings_labels_aligned {X E L : Type} (encode : X → E)
    (dataloader : List (List (X × L))) :
    (get_embeddings encode dataloader).1.length =
      (get_embeddings encode dataloader).2.length ∧
    ∀ i : Nat,
      (get_embeddings encode dataloader).1[i]? =
        (dataloader.flatten[i]?).map (fun p => encode p.1) ∧
      (get_embeddings encode dataloader).2[i]? =
        (dataloader.flatten[i]?).map (fun p => p.2) := by
  rw [get_embeddings_eq]
  refine ⟨by simp only [List.length_map],
    fun i => ⟨by simp only [List.getElem?_map], by simp only [List.getElem?_map]⟩⟩

/-- C3 counterexample: `get_embeddings` over a loader whose traversal order
is the permutation swapping the two rows (a shuffled traversal, as the
train loader of the program is shuffled) returns the encodings in traversal
order, not in the original row order: row 0 of the output is the encoding
of row 1 of the input. -/
theorem C3_counterexample :
    (get_embeddings (fun v : List ℚ => v) (dataLoader dataEx [1, 0] 256)).1 =
      [[1], [0]] ∧
    (get_embeddings (fun v : List ℚ => v) (dataLoader dataEx [1, 0] 256)).1 ≠
      dataEx.map (fun p => p.1) := by
  constructor <;> decide

/-- C3 amended: whenever the loader traverses the dataset without
shuffling (traversal order equal to the identity, as for the test loader of
the program), `get_embeddings` returns one encoding per input row in the
original row order regardless of the batch size, together with the labels
in the same order; for the shuffled train loader the output is instead in
traversal order. -/
theorem C3_amended_row_order {X E L : Type} (encode : X → E) (data : List (X × L))
    (batch_size : Nat) (hbs : 0 < batch_size) :
    (get_embeddings encode (dataLoader data (List.range data.length) batch_size)).1 =
      data.map (fun p => encode p.1) ∧
    (get_embeddings encode (dataLoader data (List.range data.length) batch_size)).2 =
      data.map (fun p => p.2) := by
  have h : (dataLoader data (List.range data.length) batch_size).flatten = data := by
    unfold dataLoader
    rw [toBatches_flatten _ hbs, filterMap_getElem_range]
  rw [get_embeddings_eq, h]
  exact ⟨rfl, rfl⟩

/-- Witness for the amended C3 theorem at a concrete dataset and the
program's batch size of 256. -/
theorem C3_amended_row_order_witness :
    (0 : Nat) < 256 ∧
    (get_embeddings (fun v : List ℚ => v)
        (dataLoader dataEx (List.range dataEx.length) 256)).1 =
      dataEx.map (fun p => p.1) :=
  ⟨by decide, (C3_amended_row_order (fun v : List ℚ => v) dataEx 256 (by decide)).1⟩

/-! ## Lemmas about `np_bincount` and `np_argmax` -/

theorem le_foldr_max_int (v : List Int) : ∀ x ∈ v, x ≤ v.foldr max 0 := by
  induction v with
  | nil => intro x hx; simp at hx
  | cons y ys ih =>
    intro x hx
    rcases List.mem_cons.mp hx with h | h
    · subst h; exact le_max_left _ _
    · exact le_trans (ih x h) (le_max_right _ _)

theorem foldr_max_int_nonneg (v : List Int) : 0 ≤ v.foldr max 0 := by
  induction v with
  | nil => simp
  | cons y ys ih => exact le_trans ih (le_max_right _ _)

theorem le_foldr_max_nat (l : List Nat) : ∀ x ∈ l, x ≤ l.foldr max 0 := by
  induction l with
  | nil => intro x hx; simp at hx
  | cons y ys ih =>
    intro x hx
    rcases List.mem_cons.mp hx with h | h
    · subst h; exact le_max_left _ _
    · exact le_trans (ih x h) (le_max_right _ _)

theorem foldr_max_nat_mem (l : List Nat) (h : l ≠ []) : l.foldr max 0 ∈ l := by
  induction l with
  | nil => exact absurd rfl h
  | cons y ys ih =>
    match ys, ih with
    | [], _ => simp
    | z :: zs, ih =>
      rcases max_choice y ((z :: zs).foldr max 0) with hm | hm
      · simp only [List.foldr_cons] at hm ⊢
        rw [hm]
        exact List.mem_cons_self _ _
      · simp only [List.foldr_cons] at hm ⊢
        rw [hm]
        exact List.mem_cons_of_mem _ (ih (by simp))

theorem np_bincount_ok (v : List Int) (hne : v ≠ []) (hnn : ∀ x ∈ v, 0 ≤ x) :
    np_bincount v =
      .ok ((List.range ((v.foldr max 0).toNat + 1)).map (fun (i : Nat) => v.count ((i : Int)))) := by
  unfold np_bincount
  rw [if_neg, if_neg]
  · simp [List.isEmpty_iff, hne]
  · intro hcontra
    rw [List.any_eq_true] at hcontra
    obtain ⟨x, hx, hlt⟩ := hcontra
    rw [decide_eq_true_eq] at hlt
    exact absurd (hnn x hx) (not_le.mpr hlt)

theorem np_argmax_ok (l : List Nat) (hne : l ≠ []) :
    ∃ a, np_argmax l = .ok a ∧ a < l.length ∧
      (∀ h : a < l.length, l.get ⟨a, h⟩ = l.foldr max 0) ∧
      (∀ j, ∀ h : j < l.length, j < a → l.get ⟨j, h⟩ ≠ l.foldr max 0) := by
  have hM : l.foldr max 0 ∈ l := foldr_max_nat_mem l hne
  have hex : ∃ x ∈ l, (x == l.foldr max 0) = true := ⟨_, hM, beq_self_eq_true _⟩
  have hlt : l.findIdx (fun x => x == l.foldr max 0) < l.length :=
    List.findIdx_lt_length_of_exists hex
  refine ⟨l.findIdx (fun x => x == l.foldr max 0), ?_, hlt, ?_, ?_⟩
  · unfold np_argmax
    rw [if_neg]
    simp [List.isEmpty_iff, hne]
  · intro h
    have := @List.findIdx_getElem _ (fun x => x == l.foldr max 0) l h
    simpa [List.get_eq_getElem] using this
  · intro j hj hlt2 hcontra
    have : ¬ ((fun x => x == l.foldr max 0) (l.get ⟨j, hj⟩) = true) := by
      have := @List.not_of_lt_findIdx _ (fun x => x == l.foldr max 0) l j hlt2
      simpa [List.get_eq_getElem] using this
    apply this
    show (l.get ⟨j, hj⟩ == l.foldr max 0) = true
    rw [hcontra]
    exact beq_self_eq_true _

theorem bincountArgmax_spec (v : List Int) (hne : v ≠ []) (hnn : ∀ x ∈ v, 0 ≤ x) :
    ∃ a, bincountArgmax v = .ok a ∧
      ((a : Int) ∈ v) ∧
      (∀ x : Int, v.count x ≤ v.count (a : Int)) ∧
      (∀ x : Int, v.count x = v.count (a : Int) → (a : Int) ≤ x) := by
  have hM0 : 0 ≤ v.foldr max 0 := foldr_max_int_nonneg v
  have hbc := np_bincount_ok v hne hnn
  obtain ⟨a, hok, halt, hamax, hamin⟩ :=
    np_argmax_ok ((List.range ((v.foldr max 0).toNat + 1)).map (fun (i : Nat) => v.count ((i : Int))))
      (by
        intro hcontra
        have : ((List.range ((v.foldr max 0).toNat + 1)).map
            (fun (i : Nat) => v.count ((i : Int)))).length = 0 := by rw [hcontra]; rfl
        simp at this)
  have hclen : ((List.range ((v.foldr max 0).toNat + 1)).map
      (fun (i : Nat) => v.count ((i : Int)))).length = (v.foldr max 0).toNat + 1 := by simp
  have hcget : ∀ (i : Nat) (h : i < ((List.range ((v.foldr max 0).toNat + 1)).map
      (fun (i : Nat) => v.count ((i : Int)))).length),
      ((List.range ((v.foldr max 0).toNat + 1)).map
        (fun (i : Nat) => v.count ((i : Int)))).get ⟨i, h⟩ = v.count (i : Int) := by
    intro i h
    simp
  have hcount_eq : ∀ x : Int, 0 ≤ x → x ≤ v.foldr max 0 →
      ∃ h : x.toNat < ((List.range ((v.foldr max 0).toNat + 1)).map
        (fun (i : Nat) => v.count ((i : Int)))).length,
      ((List.range ((v.foldr max 0).toNat + 1)).map
        (fun (i : Nat) => v.count ((i : Int)))).get ⟨x.toNat, h⟩ = v.count x := by
    intro x hx hxM
    have h1 : x.toNat ≤ (v.foldr max 0).toNat := Int.toNat_le_toNat hxM
    have h2 : x.toNat < ((List.range ((v.foldr max 0).toNat + 1)).map
        (fun (i : Nat) => v.count ((i : Int)))).length := by
      rw [hclen]; omega
    refine ⟨h2, ?_⟩
    rw [hcget _ h2, Int.toNat_of_nonneg hx]
  have hle_C : ∀ (i : Nat) (h : i < ((List.range ((v.foldr max 0).toNat + 1)).map
      (fun (i : Nat) => v.count ((i : Int)))).length),
      ((List.range ((v.foldr max 0).toNat + 1)).map
        (fun (i : Nat) => v.count ((i : Int)))).get ⟨i, h⟩ ≤
      ((List.range ((v.foldr max 0).toNat + 1)).map
        (fun (i : Nat) => v.count ((i : Int)))).foldr max 0 :=
    fun i h => le_foldr_max_nat _ _ (List.get_mem _ _ _)
  have hcountA : v.count (a : Int) =
      ((List.range ((v.foldr max 0).toNat + 1)).map
        (fun (i : Nat) => v.count ((i : Int)))).foldr max 0 := by
    rw [← hamax halt, hcget a halt]
  have hCpos : 0 < ((List.range ((v.foldr max 0).toNat + 1)).map
      (fun (i : Nat) => v.count ((i : Int)))).foldr max 0 := by
    obtain ⟨x0, hx0⟩ := List.exists_mem_of_ne_nil v hne
    have hx00 : 0 ≤ x0 := hnn x0 hx0
    have hx0M : x0 ≤ v.foldr max 0 := le_foldr_max_int v x0 hx0
    obtain ⟨h2, heq⟩ := hcount_eq x0 hx00 hx0M
    have hpos : 0 < v.count x0 := List.count_pos_iff.mpr hx0
    calc 0 < v.count x0 := hpos
    _ = _ := heq.symm
    _ ≤ _ := hle_C _ h2
  refine ⟨a, ?_, ?_, ?_, ?_⟩
  · unfold bincountArgmax
    rw [hbc]
    exact hok
  · rw [← List.count_pos_iff, hcountA]
    exact hCpos
  · intro x
    by_cases hx : 0 ≤ x ∧ x ≤ v.foldr max 0
    · obtain ⟨h2, heq⟩ := hcount_eq x hx.1 hx.2
      rw [hcountA, ← heq]
      exact hle_C _ h2
    · push_neg at hx
      have hxnot : x ∉ v := by
        intro hmem
        rcases lt_or_le x 0 with hlt | hge
        · exact absurd (hnn x hmem) (not_le.mpr hlt)
        · exact absurd (le_foldr_max_int v x hmem) (not_le.mpr (hx hge))
      rw [List.count_eq_zero.mpr hxnot]
      exact Nat.zero_le _
  · intro x hxc
    have hxpos : 0 < v.count x := by
      rw [hxc, hcountA]
      exact hCpos
    have hxmem : x ∈ v := List.count_pos_iff.mp hxpos
    have hx0 : 0 ≤ x := hnn x hxmem
    have hxM : x ≤ v.foldr max 0 := le_foldr_max_int v x hxmem
    by_contra hcon
    push_neg at hcon
    obtain ⟨h2, heq⟩ := hcount_eq x hx0 hxM
    have hxa : x.toNat < a := by
      have := Int.toNat_of_nonneg hx0
      omega
    exact hamin x.toNat h2 hxa (by rw [heq, hxc, hcountA])

/-! ## Lemmas about `groupByCluster` -/

theorem clusterMembers_append (pairs : List (Int × Int)) (p : Int × Int) (c : Int) :
    clusterMembers (pairs ++ [p]) c =
      clusterMembers pairs c ++ (if p.1 == c then [p.2] else []) := by
  unfold clusterMembers
  rw [List.filter_append, List.map_append]
  by_cases h : p.1 == c <;> simp [List.filter_cons, h]

theorem clusterMembers_eq_nil_of_not_mem (pairs : List (Int × Int)) (c : Int)
    (h : c ∉ pairs.map Prod.fst) : clusterMembers pairs c = [] := by
  unfold clusterMembers
  rw [List.filter_eq_nil_iff.mpr, List.map_nil]
  intro p hp hbeq
  rw [beq_iff_eq] at hbeq
  exact h (List.mem_map.mpr ⟨p, hp, hbeq⟩)

theorem mem_clusterMembers_of_mem (pairs : List (Int × Int)) (q : Int × Int)
    (hq : q ∈ pairs) : q.2 ∈ clusterMembers pairs q.1 := by
  unfold clusterMembers
  exact List.mem_map.mpr ⟨q, List.mem_filter.mpr ⟨hq, beq_self_eq_true _⟩, rfl⟩

theorem mem_snd_of_mem_clusterMembers (pairs : List (Int × Int)) (c : Int) (x : Int)
    (hx : x ∈ clusterMembers pairs c) : x ∈ pairs.map Prod.snd := by
  unfold clusterMembers at hx
  obtain ⟨q, hq, hqx⟩ := List.mem_map.mp hx
  exact List.mem_map.mpr ⟨q, (List.mem_filter.mp hq).1, hqx⟩

theorem clusterMembers_ne_nil (pairs : List (Int × Int)) (c : Int)
    (h : c ∈ pairs.map Prod.fst) : clusterMembers pairs c ≠ [] := by
  obtain ⟨q, hq, hqc⟩ := List.mem_map.mp h
  subst hqc
  intro hcontra
  have hmem2 := mem_clusterMembers_of_mem pairs q hq
  rw [hcontra] at hmem2
  exact List.not_mem_nil _ hmem2

theorem groupByCluster_append (pairs : List (Int × Int)) (p : Int × Int) :
    groupByCluster (pairs ++ [p]) = addPair (groupByCluster pairs) p.1 p.2 := by
  unfold groupByCluster
  rw [List.foldl_append]
  rfl

theorem groupByCluster_spec (pairs : List (Int × Int)) :
    ((groupByCluster pairs).map Prod.fst).Nodup ∧
    (∀ c, c ∈ (groupByCluster pairs).map Prod.fst ↔ c ∈ pairs.map Prod.fst) ∧
    (∀ c v, (c, v) ∈ groupByCluster pairs → v = clusterMembers pairs c) := by
  induction pairs using List.reverseRecOn with
  | nil =>
    refine ⟨by simp [groupByCluster], by simp [groupByCluster], ?_⟩
    intro c v hcv
    simp [groupByCluster] at hcv
  | append_singleton pairs p ih =>
    obtain ⟨hnd, hmem, hval⟩ := ih
    rw [groupByCluster_append]
    unfold addPair
    by_cases hin : (groupByCluster pairs).any (fun e => e.1 == p.1)
    · rw [if_pos hin]
      have hkeys : ((groupByCluster pairs).map
          (fun e => if e.1 == p.1 then (e.1, e.2 ++ [p.2]) else e)).map Prod.fst =
          (groupByCluster pairs).map Prod.fst := by
        rw [List.map_map]
        apply List.map_congr_left
        intro e _
        by_cases hc : e.1 = p.1 <;> simp [hc]
      have hpmem : p.1 ∈ pairs.map Prod.fst := by
        rw [List.any_eq_true] at hin
        obtain ⟨e, he, hbeq⟩ := hin
        rw [beq_iff_eq] at hbeq
        exact (hmem p.1).mp (List.mem_map.mpr ⟨e, he, hbeq⟩)
      refine ⟨by rw [hkeys]; exact hnd, ?_, ?_⟩
      · intro c
        rw [hkeys, List.map_append, List.mem_append]
        constructor
        · intro h
          exact Or.inl ((hmem c).mp h)
        · intro h
          rcases h with h | h
          · exact (hmem c).mpr h
          · simp only [List.map_cons, List.map_nil, List.mem_singleton] at h
            subst h
            exact (hmem p.1).mpr hpmem
      · intro c v hcv
        obtain ⟨e, he, heq⟩ := List.mem_map.mp hcv
        by_cases hc : e.1 == p.1
        · rw [if_pos hc] at heq
          have hc1 : e.1 = p.1 := beq_iff_eq.mp hc
          have hceq : c = e.1 := by
            have := congrArg Prod.fst heq
            simpa using this.symm
          have hveq : v = e.2 ++ [p.2] := by
            have := congrArg Prod.snd heq
            simpa using this.symm
          rw [clusterMembers_append, hveq, hval e.1 e.2 (by
            have h2 : e = (e.1, e.2) := rfl
            rw [← h2]; exact he), hceq]
          simp [hc1]
        · rw [if_neg hc] at heq
          have hcv2 : (c, v) ∈ groupByCluster pairs := heq ▸ he
          have hc1 : c ≠ p.1 := by
            intro hcontra
            have hceq : c = e.1 := by
              have := congrArg Prod.fst heq
              simpa using this.symm
            rw [hceq] at hcontra
            exact hc (beq_iff_eq.mpr hcontra)
          rw [clusterMembers_append, hval c v hcv2]
          have : ¬ (p.1 == c) = true := by
            intro hcontra
            exact hc1 (beq_iff_eq.mp hcontra).symm
          rw [if_neg this, List.append_nil]
    · rw [if_neg hin]
      have hpnot : p.1 ∉ (groupByCluster pairs).map Prod.fst := by
        intro hcontra
        obtain ⟨e, he, hbeq⟩ := List.mem_map.mp hcontra
        apply hin
        rw [List.any_eq_true]
        exact ⟨e, he, beq_iff_eq.mpr hbeq⟩
      have hpnotp : p.1 ∉ pairs.map Prod.fst := fun h => hpnot ((hmem p.1).mpr h)
      refine ⟨?_, ?_, ?_⟩
      · rw [List.map_append]
        rw [List.nodup_append]
        refine ⟨hnd, by simp, ?_⟩
        intro c hc hcp
        simp only [List.map_cons, List.map_nil, List.mem_singleton] at hcp
        subst hcp
        exact hpnot hc
      · intro c
        rw [List.map_append, List.map_append, List.mem_append, List.mem_append]
        simp only [List.map_cons, List.map_nil, List.mem_singleton]
        constructor
        · intro h
          rcases h with h | h
          · exact Or.inl ((hmem c).mp h)
          · exact Or.inr h
        · intro h
          rcases h with h | h
          · exact Or.inl ((hmem c).mpr h)
          · exact Or.inr h
      · intro c v hcv
        rw [List.mem_append] at hcv
        rcases hcv with h | h
        · have hc1 : c ≠ p.1 := by
            intro hcontra
            subst hcontra
            exact hpnot (List.mem_map.mpr ⟨(p.1, v), h, rfl⟩)
          rw [clusterMembers_append, hval c v h]
          have : ¬ (p.1 == c) = true := by
            intro hcontra
            exact hc1 (beq_iff_eq.mp hcontra).symm
          rw [if_neg this, List.append_nil]
        · simp only [List.mem_singleton, Prod.mk.injEq] at h
          obtain ⟨hc, hv⟩ := h
          subst hc
          subst hv
          rw [clusterMembers_append,
            clusterMembers_eq_nil_of_not_mem pairs p.1 hpnotp]
          simp

/-! ## Lemmas about `calcEntries` and `calculate_mapping` -/

theorem calcEntries_keys (l : List (Int × List Int)) (r : List (Int × Nat))
    (h : calcEntries l = .ok r) : r.map Prod.fst = l.map Prod.fst := by
  induction l generalizing r with
  | nil =>
    unfold calcEntries at h
    cases h
    rfl
  | cons kv rest ih =>
    obtain ⟨k, v⟩ := kv
    unfold calcEntries at h
    cases hb : bincountArgmax v with
    | error e => rw [hb] at h; cases h
    | ok a =>
      rw [hb] at h
      cases hr : calcEntries rest with
      | error e => rw [hr] at h; cases h
      | ok r0 =>
        rw [hr] at h
        cases h
        simp [ih r0 hr]

theorem calcEntries_mem (l : List (Int × List Int)) (r : List (Int × Nat))
    (h : calcEntries l = .ok r) :
    ∀ p ∈ r, ∃ v, (p.1, v) ∈ l ∧ bincountArgmax v = .ok p.2 := by
  induction l generalizing r with
  | nil =>
    unfold calcEntries at h
    cases h
    intro p hp
    simp at hp
  | cons kv rest ih =>
    obtain ⟨k, v⟩ := kv
    unfold calcEntries at h
    cases hb : bincountArgmax v with
    | error e => rw [hb] at h; cases h
    | ok a =>
      rw [hb] at h
      cases hr : calcEntries rest with
      | error e => rw [hr] at h; cases h
      | ok r0 =>
        rw [hr] at h
        cases h
        intro p hp
        rcases List.mem_cons.mp hp with hp1 | hp1
        · subst hp1
          exact ⟨v, List.mem_cons_self _ _, hb⟩
        · obtain ⟨v2, hv2, hbv2⟩ := ih r0 hr p hp1
          exact ⟨v2, List.mem_cons_of_mem _ hv2, hbv2⟩

theorem calcEntries_ok_of_all (l : List (Int × List Int))
    (h : ∀ kv ∈ l, ∃ a, bincountArgmax kv.2 = .ok a) :
    ∃ r, calcEntries l = .ok r := by
  induction l with
  | nil => exact ⟨[], rfl⟩
  | cons kv rest ih =>
    obtain ⟨k, v⟩ := kv
    obtain ⟨a, ha⟩ := h (k, v) (List.mem_cons_self _ _)
    obtain ⟨r0, hr0⟩ := ih (fun kv hkv => h kv (List.mem_cons_of_mem _ hkv))
    refine ⟨(k, a) :: r0, ?_⟩
    unfold calcEntries
    rw [ha, hr0]

theorem calcEntries_error_of_mem (l : List (Int × List Int)) (kv : Int × List Int)
    (hkv : kv ∈ l) (e0 : String) (he : bincountArgmax kv.2 = .error e0) :
    ∃ e, calcEntries l = .error e := by
  induction l with
  | nil => simp at hkv
  | cons hd rest ih =>
    obtain ⟨k, v⟩ := hd
    rcases List.mem_cons.mp hkv with h1 | h1
    · subst h1
      refine ⟨e0, ?_⟩
      unfold calcEntries
      rw [he]
    · cases hb : bincountArgmax v with
      | error e2 =>
        refine ⟨e2, ?_⟩
        unfold calcEntries
        rw [hb]
      | ok a =>
        obtain ⟨e2, he2⟩ := ih h1
        refine ⟨e2, ?_⟩
        unfold calcEntries
        rw [hb, he2]

theorem lookup_isSome_of_mem_keys (m : List (Int × Nat)) (c : Int)
    (h : c ∈ m.map Prod.fst) : (m.lookup c).isSome := by
  induction m with
  | nil => simp at h
  | cons e es ih =>
    simp only [List.map_cons, List.mem_cons] at h
    unfold List.lookup
    by_cases hc : c == e.1
    · rw [hc]
      rfl
    · rw [Bool.not_eq_true] at hc
      rw [hc]
      apply ih
      rcases h with h | h
      · rw [beq_eq_false_iff_ne] at hc
        exact absurd h hc
      · exact h

theorem calculate_mapping_ok (cl tl : List Int) (hnn : ∀ l ∈ tl, 0 ≤ l) :
    ∃ m, calculate_mapping cl tl = .ok m := by
  unfold calculate_mapping
  apply calcEntries_ok_of_all
  intro kv hkv
  obtain ⟨hnd, hmem, hval⟩ := groupByCluster_spec (cl.zip tl)
  have hkeys : kv.1 ∈ (groupByCluster (cl.zip tl)).map Prod.fst :=
    List.mem_map.mpr ⟨kv, hkv, rfl⟩
  have hv : kv.2 = clusterMembers (cl.zip tl) kv.1 := by
    apply hval kv.1 kv.2
    have h2 : kv = (kv.1, kv.2) := rfl
    rw [← h2]
    exact hkv
  have hne : kv.2 ≠ [] := by
    rw [hv]
    exact clusterMembers_ne_nil _ _ ((hmem kv.1).mp hkeys)
  have hnn2 : ∀ x ∈ kv.2, 0 ≤ x := by
    intro x hx
    rw [hv] at hx
    have hsnd := mem_snd_of_mem_clusterMembers _ _ _ hx
    obtain ⟨q, hq, hqx⟩ := List.mem_map.mp hsnd
    subst hqx
    exact hnn q.2 (List.of_mem_zip hq).2
  obtain ⟨a, ha, _, _, _⟩ := bincountArgmax_spec kv.2 hne hnn2
  exact ⟨a, ha⟩

theorem bincountArgmax_error_of_neg (v : List Int) (x : Int) (hx : x ∈ v)
    (hneg : x < 0) : ∃ e, bincountArgmax v = .error e := by
  have hany : v.any (fun x => decide (x < 0)) = true :=
    List.any_eq_true.mpr ⟨x, hx, decide_eq_true hneg⟩
  refine ⟨"bincount requires non-negative values", ?_⟩
  unfold bincountArgmax np_bincount
  rw [if_pos hany]

theorem group_entry_members (cl tl : List Int) (c : Int) (v : List Int)
    (hcv : (c, v) ∈ groupByCluster (cl.zip tl)) :
    v = clusterMembers (cl.zip tl) c ∧ v ≠ [] := by
  obtain ⟨hnd, hmem, hval⟩ := groupByCluster_spec (cl.zip tl)
  have hv := hval c v hcv
  refine ⟨hv, ?_⟩
  rw [hv]
  apply clusterMembers_ne_nil
  exact (hmem c).mp (List.mem_map.mpr ⟨(c, v), hcv, rfl⟩)

/-! ## Claims C2 and C10 (cluster-to-label mapping) -/

/-- C2: the cluster-to-label mapping contains exactly one entry per cluster
identifier occurring in the assignment and none for identifiers that do not
occur; each entry's value is the most frequent true label among the rows
assigned to that cluster, ties broken by the lowest label value, and is a
label actually observed in that cluster. Stated under row alignment (equal
lengths) and non-negative labels, the preconditions under which the
program's bincount call is defined. -/
theorem C2_mapping_majority (cluster_labels true_labels : List Int)
    (hlen : cluster_labels.length = true_labels.length)
    (hnn : ∀ l ∈ true_labels, 0 ≤ l) :
    ∃ m, calculate_mapping cluster_labels true_labels = .ok m ∧
      (m.map Prod.fst).Nodup ∧
      (∀ c, c ∈ m.map Prod.fst ↔ c ∈ cluster_labels) ∧
      (∀ c a, (c, a) ∈ m →
        (a : Int) ∈ clusterMembers (cluster_labels.zip true_labels) c ∧
        (∀ x : Int, (clusterMembers (cluster_labels.zip true_labels) c).count x ≤
          (clusterMembers (cluster_labels.zip true_labels) c).count (a : Int)) ∧
        (∀ x : Int, (clusterMembers (cluster_labels.zip true_labels) c).count x =
          (clusterMembers (cluster_labels.zip true_labels) c).count (a : Int) →
          (a : Int) ≤ x)) := by
  obtain ⟨m, hm⟩ := calculate_mapping_ok cluster_labels true_labels hnn
  obtain ⟨hnd, hmem, hval⟩ := groupByCluster_spec (cluster_labels.zip true_labels)
  have hm2 : calcEntries (groupByCluster (cluster_labels.zip true_labels)) = .ok m := hm
  have hkeys := calcEntries_keys _ m hm2
  have hfst : (cluster_labels.zip true_labels).map Prod.fst = cluster_labels :=
    List.map_fst_zip cluster_labels true_labels (le_of_eq hlen)
  refine ⟨m, hm, ?_, ?_, ?_⟩
  · rw [hkeys]
    exact hnd
  · intro c
    rw [hkeys, hmem c, hfst]
  · intro c a hca
    obtain ⟨v, hvg, hba⟩ := calcEntries_mem _ m hm2 (c, a) hca
    obtain ⟨hv, hne⟩ := group_entry_members cluster_labels true_labels c v hvg
    have hnn2 : ∀ x ∈ v, 0 ≤ x := by
      intro x hx
      rw [hv] at hx
      have hsnd := mem_snd_of_mem_clusterMembers _ _ _ hx
      obtain ⟨q, hq, hqx⟩ := List.mem_map.mp hsnd
      subst hqx
      exact hnn q.2 (List.of_mem_zip hq).2
    obtain ⟨a0, ha0, hmemv, hmax, hmin⟩ := bincountArgmax_spec v hne hnn2
    have haa : a = a0 := by
      rw [hba] at ha0
      exact (Except.ok.injEq _ _).mp ha0
    subst haa
    rw [← hv]
    exact ⟨hmemv, hmax, hmin⟩

/-- Witness for C2 at a concrete assignment: clusters 0 and 1 with label
lists `[5, 5]` and `[2, 3, 2]`, whose majority labels are 5 and 2. -/
theorem C2_mapping_majority_witness :
    ∃ m, calculate_mapping [0, 1, 0, 1, 1] [5, 2, 5, 3, 2] = .ok m ∧
      (m.map Prod.fst).Nodup ∧
      (∀ c, c ∈ m.map Prod.fst ↔ c ∈ ([0, 1, 0, 1, 1] : List Int)) ∧
      (∀ c a, (c, a) ∈ m →
        (a : Int) ∈ clusterMembers (([0, 1, 0, 1, 1] : List Int).zip [5, 2, 5, 3, 2]) c ∧
        (∀ x : Int,
          (clusterMembers (([0, 1, 0, 1, 1] : List Int).zip [5, 2, 5, 3, 2]) c).count x ≤
          (clusterMembers (([0, 1, 0, 1, 1] : List Int).zip [5, 2, 5, 3, 2]) c).count
            (a : Int)) ∧
        (∀ x : Int,
          (clusterMembers (([0, 1, 0, 1, 1] : List Int).zip [5, 2, 5, 3, 2]) c).count x =
          (clusterMembers (([0, 1, 0, 1, 1] : List Int).zip [5, 2, 5, 3, 2]) c).count
            (a : Int) →
          (a : Int) ≤ x)) :=
  C2_mapping_majority [0, 1, 0, 1, 1] [5, 2, 5, 3, 2] (by decide) (by decide)

/-- C10: the mapping computation requires non-negative labels: under row
alignment, any negative label makes it raise, and when all labels are
non-negative the error branch is unreachable and the mapping is defined at
every cluster identifier occurring in the assignment — including the noise
identifier -1 when it occurs as a key. -/
theorem C10_mapping_label_safety (cluster_labels true_labels : List Int)
    (hlen : cluster_labels.length = true_labels.length) :
    ((∃ l ∈ true_labels, l < 0) →
      ∃ e, calculate_mapping cluster_labels true_labels = .error e) ∧
    ((∀ l ∈ true_labels, 0 ≤ l) →
      ∃ m, calculate_mapping cluster_labels true_labels = .ok m ∧
        ∀ c ∈ cluster_labels, (m.lookup c).isSome) := by
  constructor
  · intro ⟨l, hl, hlneg⟩
    obtain ⟨i, hi, hgi⟩ := List.mem_iff_getElem.mp hl
    have hzlen : (cluster_labels.zip true_labels).length = cluster_labels.length := by
      rw [List.length_zip, hlen, Nat.min_self]
    have hiz : i < (cluster_labels.zip true_labels).length := by
      rw [hzlen, hlen]
      exact hi
    have hq : (cluster_labels.zip true_labels)[i] ∈ cluster_labels.zip true_labels :=
      List.getElem_mem hiz
    have hq2 : (cluster_labels.zip true_labels)[i].2 = l := by
      rw [List.getElem_zip]
      exact hgi
    obtain ⟨hnd, hmem, hval⟩ := groupByCluster_spec (cluster_labels.zip true_labels)
    have hkey : (cluster_labels.zip true_labels)[i].1 ∈
        (groupByCluster (cluster_labels.zip true_labels)).map Prod.fst :=
      (hmem _).mpr (List.mem_map.mpr ⟨_, hq, rfl⟩)
    obtain ⟨e0, he0, hefst⟩ := List.mem_map.mp hkey
    have hentry : (e0.1, e0.2) ∈ groupByCluster (cluster_labels.zip true_labels) := by
      have h2 : e0 = (e0.1, e0.2) := rfl
      rw [← h2]
      exact he0
    have hv := hval e0.1 e0.2 hentry
    have hlv : l ∈ e0.2 := by
      rw [hv, hefst]
      have := mem_clusterMembers_of_mem (cluster_labels.zip true_labels) _ hq
      rw [hq2] at this
      exact this
    obtain ⟨eb, heb⟩ := bincountArgmax_error_of_neg e0.2 l hlv hlneg
    exact calcEntries_error_of_mem _ (e0.1, e0.2) hentry eb heb
  · intro hnn
    obtain ⟨m, hm⟩ := calculate_mapping_ok cluster_labels true_labels hnn
    obtain ⟨hnd, hmem, hval⟩ := groupByCluster_spec (cluster_labels.zip true_labels)
    have hkeys := calcEntries_keys _ m hm
    have hfst : (cluster_labels.zip true_labels).map Prod.fst = cluster_labels :=
      List.map_fst_zip cluster_labels true_labels (le_of_eq hlen)
    refine ⟨m, hm, ?_⟩
    intro c hc
    apply lookup_isSome_of_mem_keys
    rw [hkeys, hmem c, hfst]
    exact hc

/-- Witness for C10 at a concrete assignment that uses the noise identifier
-1 as a key: all labels non-negative, mapping defined at every occurring
identifier. -/
theorem C10_mapping_label_safety_witness :
    ∃ m, calculate_mapping [-1, 0, -1] [1, 0, 1] = .ok m ∧
      ∀ c ∈ ([-1, 0, -1] : List Int), (m.lookup c).isSome :=
  (C10_mapping_label_safety [-1, 0, -1] [1, 0, 1] (by decide)).2 (by decide)

/-! ## Claim C1 (metric computation guards of the evaluator) -/

/-- C1: under the documented contract of the three sklearn metric functions
(they succeed whenever at least two distinct labels are present), and given
that the centroid-based assignment has at least two distinct identifiers
(what K-Means with the target count of 10 produces) and that the true
labels are non-negative (as MNIST class labels are), `evaluate_clustering`
returns without error: the three centroid metrics are computed, both
assignments are returned unchanged, and the density-based metrics are
computed when more than one distinct identifier (noise included) is present
in that assignment and are omitted — an empty metrics dictionary — when the
density-based result is degenerate (all noise or a single cluster). -/
theorem C1_metrics_iff_two_clusters {σ : Type}
    (silhouette_score davies_bouldin_score calinski_harabasz_score :
      List (List ℚ) → List Int → Except String σ)
    (embeddings : List (List ℚ)) (true_labels : List Int)
    (kmeans_labels dbscan_labels : List Int)
    (hsil : ∀ labels : List Int, 1 < (np_unique labels).length →
      ∃ v, silhouette_score embeddings labels = .ok v)
    (hdav : ∀ labels : List Int, 1 < (np_unique labels).length →
      ∃ v, davies_bouldin_score embeddings labels = .ok v)
    (hcal : ∀ labels : List Int, 1 < (np_unique labels).length →
      ∃ v, calinski_harabasz_score embeddings labels = .ok v)
    (hk : 1 < (np_unique kmeans_labels).length)
    (hnn : ∀ l ∈ true_labels, 0 ≤ l) :
    ∃ r, evaluate_clustering silhouette_score davies_bouldin_score
        calinski_harabasz_score embeddings true_labels kmeans_labels dbscan_labels =
        .ok r ∧
      r.kmeans_labels = kmeans_labels ∧
      r.dbscan_labels = dbscan_labels ∧
      r.kmeans_metrics.length = 3 ∧
      (1 < (np_unique dbscan_labels).length → r.dbscan_metrics.length = 3) ∧
      (¬ 1 < (np_unique dbscan_labels).length → r.dbscan_metrics = []) := by
  obtain ⟨s, hs⟩ := hsil kmeans_labels hk
  obtain ⟨db, hdb⟩ := hdav kmeans_labels hk
  obtain ⟨ch, hch⟩ := hcal kmeans_labels hk
  obtain ⟨m, hm⟩ := calculate_mapping_ok kmeans_labels true_labels hnn
  by_cases hg : 1 < (np_unique dbscan_labels).length
  · obtain ⟨s2, hs2⟩ := hsil dbscan_labels hg
    obtain ⟨db2, hdb2⟩ := hdav dbscan_labels hg
    obtain ⟨ch2, hch2⟩ := hcal dbscan_labels hg
    refine ⟨⟨kmeans_labels,
        [("silhouette", s), ("davies_bouldin", db), ("calinski_harabasz", ch)], m,
        dbscan_labels,
        [("silhouette", s2), ("davies_bouldin", db2), ("calinski_harabasz", ch2)]⟩,
      ?_, rfl, rfl, rfl, fun _ => rfl, fun h => absurd hg h⟩
    unfold evaluate_clustering
    rw [hs, hdb, hch, if_pos hg, hs2, hdb2, hch2, hm]
  · refine ⟨⟨kmeans_labels,
        [("silhouette", s), ("davies_bouldin", db), ("calinski_harabasz", ch)], m,
        dbscan_labels, []⟩,
      ?_, rfl, rfl, rfl, fun h => absurd h hg, fun _ => rfl⟩
    unfold evaluate_clustering
    rw [hs, hdb, hch, if_neg hg, hm]

/-- Witness for C1 with the stub metric functions, a centroid assignment
with two distinct identifiers and an all-noise density-based assignment:
the evaluator succeeds, the density metrics are empty, and the assignment
is returned. -/
theorem C1_metrics_iff_two_clusters_witness :
    ∃ r, evaluate_clustering metricStub metricStub metricStub
        [[0], [1], [2]] [0, 1, 0] [0, 1, 0] [-1, -1, -1] = .ok r ∧
      r.kmeans_labels = [0, 1, 0] ∧
      r.dbscan_labels = [-1, -1, -1] ∧
      r.kmeans_metrics.length = 3 ∧
      (1 < (np_unique [-1, -1, -1]).length → r.dbscan_metrics.length = 3) ∧
      (¬ 1 < (np_unique [-1, -1, -1]).length → r.dbscan_metrics = []) :=
  C1_metrics_iff_two_clusters metricStub metricStub metricStub
    [[0], [1], [2]] [0, 1, 0] [0, 1, 0] [-1, -1, -1]
    (fun labels h => ⟨0, by unfold metricStub; rw [if_pos h]⟩)
    (fun labels h => ⟨0, by unfold metricStub; rw [if_pos h]⟩)
    (fun labels h => ⟨0, by unfold metricStub; rw [if_pos h]⟩)
    (by decide) (by decide)
